import Mathlib

/-!
Verification of the OBJ mesh merger (`merge_obj.py`,
`merge_obj_files_in_memory`) against its natural-language specification.

The Python program is shallowly embedded here.  A Python string is a
sequence of code points, so it is modelled as `List Char` (abbreviated
`Str`); a text file is a list of lines; the output file is the list of
lines written to the output stream (every `write` in the source emits a
string ending in `"\n"`, and the header write emits two lines at once).
The directory is modelled as a list of entries, each carrying its name,
an is-regular-file flag (`os.path.isfile`), and its content lines.
Failure of `int()` is modelled with `Except Unit`: the Python code lets
the `ValueError` escape, aborting the merge, which corresponds to the
`.error` result here.

Python's `list.sort` is a stable comparison sort; it is modelled by
`List.insertionSort` (also stable), keyed by the code-point-lexicographic
order `strLe` that Python uses to compare strings.
-/

namespace MergeObj

instance {ε α : Type _} [DecidableEq ε] [DecidableEq α] :
    DecidableEq (Except ε α) := fun x y =>
  match x, y with
  | .error e, .error f =>
    if h : e = f then .isTrue (by subst h; rfl)
    else .isFalse (fun hh => h (by injection hh))
  | .ok a, .ok b =>
    if h : a = b then .isTrue (by subst h; rfl)
    else .isFalse (fun hh => h (by injection hh))
  | .error _, .ok _ => .isFalse (fun hh => Except.noConfusion hh)
  | .ok _, .error _ => .isFalse (fun hh => Except.noConfusion hh)

/-- Python strings are sequences of code points. -/
abbrev Str : Type := List Char

/-- `s.strip()`: remove leading and trailing whitespace. -/
def pyStrip (cs : Str) : Str :=
  ((cs.dropWhile Char.isWhitespace).reverse.dropWhile Char.isWhitespace).reverse

/-- `s.startswith(pre)`. -/
def startswith (pre cs : Str) : Bool := pre.isPrefixOf cs

/-- `s.split()` with no separator: split on whitespace runs, dropping
empty pieces. -/
def pySplitWs (cs : Str) : List Str :=
  (cs.splitOnP Char.isWhitespace).filter (fun t => !t.isEmpty)

/-- The decimal digit characters used when formatting an integer. -/
def digitChar : Nat → Char
  | 0 => '0' | 1 => '1' | 2 => '2' | 3 => '3' | 4 => '4'
  | 5 => '5' | 6 => '6' | 7 => '7' | 8 => '8' | 9 => '9'
  | _ => '*'

/-- Fuelled digit expansion of a natural number, most significant digit
first (structural recursion so that the kernel can evaluate it). -/
def natToCharsAux : Nat → Nat → Str
  | 0, _ => []
  | fuel + 1, n =>
    if n < 10 then [digitChar n]
    else natToCharsAux fuel (n / 10) ++ [digitChar (n % 10)]

/-- `str(n)` for a natural number. -/
def natToChars (n : Nat) : Str := natToCharsAux (n + 1) n

/-- `str(i)` for a Python integer (as interpolated by the f-strings in
the face-rebuilding code). -/
def intToChars : Int → Str
  | Int.ofNat n => natToChars n
  | Int.negSucc n => '-' :: natToChars (n + 1)

/-- Numeric value of a decimal digit character. -/
def digitVal (c : Char) : Nat := c.toNat - 48

/-- Digits of a decimal literal after the first digit, Python style: an
underscore is allowed only between two digits. -/
def pyDigits : Str → Nat → Option Nat
  | [], acc => some acc
  | '_' :: c :: cs, acc =>
    if c.isDigit then pyDigits cs (acc * 10 + digitVal c) else none
  | ['_'], _ => none
  | c :: cs, acc =>
    if c.isDigit then pyDigits cs (acc * 10 + digitVal c) else none

/-- Decimal literal: at least one digit, then `pyDigits`. -/
def pyNat? : Str → Option Nat
  | [] => none
  | c :: cs => if c.isDigit then pyDigits cs (digitVal c) else none

/-- Python's `int(s)` on a whitespace-free token: optional sign followed
by a decimal literal; `none` models the `ValueError`.  (The tokens fed
to `int` here come from `str.split()`, so they never carry surrounding
whitespace.) -/
def pyInt? : Str → Option Int
  | '+' :: cs => (pyNat? cs).map Int.ofNat
  | '-' :: cs => (pyNat? cs).map (fun n => -(n : Int))
  | cs => (pyNat? cs).map Int.ofNat

/-- The four buffers filled by pass 1 of the merger
(`vertices`, `texcoords`, `normals`, `faces`). -/
structure ParsedFile where
  vertices : List Str
  texcoords : List Str
  normals : List Str
  faces : List Str
deriving DecidableEq

/-- One iteration of the pass-1 reading loop: strip the line, skip blank
lines and `o `/`g ` statements, and classify `v `/`vt `/`vn `/`f ` lines
into the buffers; drop anything else. -/
def classifyLine (pf : ParsedFile) (raw : Str) : ParsedFile :=
  let line := pyStrip raw
  if line.isEmpty then pf
  else if startswith ['o', ' '] line || startswith ['g', ' '] line then pf
  else if startswith ['v', ' '] line then
    { pf with vertices := pf.vertices ++ [line] }
  else if startswith ['v', 't', ' '] line then
    { pf with texcoords := pf.texcoords ++ [line] }
  else if startswith ['v', 'n', ' '] line then
    { pf with normals := pf.normals ++ [line] }
  else if startswith ['f', ' '] line then
    { pf with faces := pf.faces ++ [line] }
  else pf

/-- Pass 1 over a whole file. -/
def parseLines (ls : List Str) : ParsedFile :=
  ls.foldl classifyLine ⟨[], [], [], []⟩

/-- One of the three index-field rewrites inside the token loop:
`if len(indices) > k and indices[k]: idx = int(indices[k]) + off
else: idx = ""`.  The `.error` case is the escaping `ValueError`. -/
def renumberField (indices : List Str) (k : Nat) (off : Nat) : Except Unit Str :=
  if k < indices.length ∧ indices.getD k [] ≠ [] then
    match pyInt? (indices.getD k []) with
    | some i => .ok (intToChars (i + (off : Int)))
    | none => .error ()
  else
    .ok []

/-- The token-rebuilding conditional at the end of the token loop. -/
def rebuildToken (v t n : Str) : Str :=
  if t = [] ∧ n = [] then v
  else if n = [] then v ++ ['/'] ++ t
  else v ++ ['/'] ++ t ++ ['/'] ++ n

/-- Process one face token `p`: split on `/`, rewrite the three index
fields, rebuild. -/
def renumberToken (vOff tOff nOff : Nat) (p : Str) : Except Unit Str :=
  let indices := p.splitOn '/'
  match renumberField indices 0 vOff with
  | .error e => .error e
  | .ok v =>
    match renumberField indices 1 tOff with
    | .error e => .error e
    | .ok t =>
      match renumberField indices 2 nOff with
      | .error e => .error e
      | .ok n => .ok (rebuildToken v t n)

/-- Effectful map over a list, stopping at the first error — the shape
of the token and face loops. -/
def mapExcept (f : α → Except Unit β) : List α → Except Unit (List β)
  | [] => .ok []
  | x :: xs =>
    match f x with
    | .error e => .error e
    | .ok y =>
      match mapExcept f xs with
      | .error e => .error e
      | .ok ys => .ok (y :: ys)

/-- Process one stored face line: drop the leading `f` keyword, rewrite
every token, and re-emit `"f " + " ".join(tokens)`. -/
def renumberFace (vOff tOff nOff : Nat) (line : Str) : Except Unit Str :=
  match mapExcept (renumberToken vOff tOff nOff) ((pySplitWs line).drop 1) with
  | .error e => .error e
  | .ok toks => .ok (['f', ' '] ++ List.intercalate [' '] toks)

/-- `os.path.splitext(p)[0]` for a name with no directory separator:
strip the part from the last dot, unless every character before that dot
is itself a dot. -/
def splitextBase (p : Str) : Str :=
  let r := p.reverse.indexOf '.'
  if r < p.length then
    let dotIndex := p.length - 1 - r
    if (p.take dotIndex).all (fun c => c = '.') then p
    else p.take dotIndex
  else p

/-- The three running counters `vertex_offset`, `tex_offset`,
`norm_offset`. -/
structure Offsets where
  vertex : Nat
  tex : Nat
  norm : Nat
deriving DecidableEq

/-- The lines written for one input file: regenerated `o`/`g` headers,
the vertex, texcoord and normal lines verbatim, then the renumbered
faces. -/
def fileBlock (offs : Offsets) (name : Str) (content : List Str) :
    Except Unit (List Str) :=
  let objName := splitextBase name
  let pf := parseLines content
  match mapExcept (renumberFace offs.vertex offs.tex offs.norm) pf.faces with
  | .error e => .error e
  | .ok newFaces =>
    .ok ((['o', ' '] ++ objName) :: (['g', ' '] ++ objName) ::
      (pf.vertices ++ pf.texcoords ++ pf.normals ++ newFaces))

/-- The offset update performed after a file's block is written. -/
def advanceOffsets (offs : Offsets) (content : List Str) : Offsets :=
  let pf := parseLines content
  ⟨offs.vertex + pf.vertices.length, offs.tex + pf.texcoords.length,
    offs.norm + pf.normals.length⟩

/-- The main loop over the sorted file list, threading the offsets. -/
def mergeFilesFrom (offs : Offsets) :
    List (Str × List Str) → Except Unit (List Str)
  | [] => .ok []
  | (name, content) :: rest =>
    match fileBlock offs name content with
    | .error e => .error e
    | .ok b =>
      match mergeFilesFrom (advanceOffsets offs content) rest with
      | .error e => .error e
      | .ok r => .ok (b ++ r)

/-- A directory entry as seen by `os.listdir` plus `os.path.isfile`. -/
structure DirEntry where
  name : Str
  isFile : Bool
  content : List Str
deriving DecidableEq

/-- The filter `f.lower().endswith(".obj") and os.path.isfile(...)`. -/
def isObjEntry (e : DirEntry) : Bool :=
  (['.', 'o', 'b', 'j'].isSuffixOf (e.name.map Char.toLower)) && e.isFile

/-- Code-point-lexicographic `≤` on Python strings (the order used by
`list.sort` on strings). -/
def strLe : Str → Str → Bool
  | [], _ => true
  | _ :: _, [] => false
  | a :: as, b :: bs =>
    if a.toNat < b.toNat then true
    else if b.toNat < a.toNat then false
    else strLe as bs

/-- The sort key of `obj_files.sort()`, lifted to directory entries. -/
def nameLe (a b : DirEntry) : Prop := strLe a.name b.name = true

instance : DecidableRel nameLe := fun a b => by
  unfold nameLe; infer_instance

/-- `obj_files`: the filtered, sorted list of entries to merge. -/
def selectObjFiles (entries : List DirEntry) : List DirEntry :=
  List.insertionSort nameLe (entries.filter isObjEntry)

/-- The first write: `"# Merged OBJ file\n\n"`, i.e. a comment line and
a blank line. -/
def headerLine : Str := "# Merged OBJ file".data

/-- The whole program: filter and sort the directory listing, write the
two header lines, then every file's block in order, starting from zero
offsets. -/
def mergeDirectory (entries : List DirEntry) : Except Unit (List Str) :=
  match mergeFilesFrom ⟨0, 0, 0⟩
      ((selectObjFiles entries).map (fun e => (e.name, e.content))) with
  | .error e => .error e
  | .ok blocks => .ok (headerLine :: [] :: blocks)

/-! ### Observation vocabulary used by the claim statements -/

/-- Field `k` of a face token (`p.split('/')[k]`, or empty if the token
has fewer fields). -/
def fieldAt (p : Str) (k : Nat) : Str := (p.splitOn '/').getD k []

/-- Field `k` of token `p` is present and non-empty. -/
def fieldPresent (p : Str) (k : Nat) : Prop :=
  k < (p.splitOn '/').length ∧ fieldAt p k ≠ []

instance {p : Str} {k : Nat} : Decidable (fieldPresent p k) := by
  unfold fieldPresent
  infer_instance

/-- `s` is the re-emission of field `k` of token `p` under offset `off`:
a present field is emitted as its integer value plus the offset, an
absent field is re-emitted as absent (empty). -/
def fieldRenumbered (p : Str) (k : Nat) (off : Nat) (s : Str) : Prop :=
  (fieldPresent p k →
    ∃ i, pyInt? (fieldAt p k) = some i ∧ s = intToChars (i + (off : Int))) ∧
  (¬ fieldPresent p k → s = [])

/-- Number of vertex (`v `) lines in a list of output lines. -/
def countVertexLines (out : List Str) : Nat :=
  (out.filter (fun l => startswith ['v', ' '] l)).length

/-- Vertex-line count of an entry's file. -/
def vertCount (e : DirEntry) : Nat := (parseLines e.content).vertices.length

/-- Texcoord-line count of an entry's file. -/
def texCount (e : DirEntry) : Nat := (parseLines e.content).texcoords.length

/-- Normal-line count of an entry's file. -/
def normCount (e : DirEntry) : Nat := (parseLines e.content).normals.length

/-- The offsets in force when file `k` of the sorted list is processed:
the sums of the counts of the earlier files. -/
def offsetsBefore (files : List DirEntry) (k : Nat) : Offsets :=
  ⟨((files.take k).map vertCount).sum,
    ((files.take k).map texCount).sum,
    ((files.take k).map normCount).sum⟩

/-- Every present face-index field of token `p` parses as an integer
(fields beyond the third are never examined). -/
def goodToken (p : Str) : Prop :=
  ∀ k, k < 3 → fieldPresent p k → (pyInt? (fieldAt p k)).isSome

/-- Each pass-1 buffer only ever holds lines with the matching keyword
prefix. -/
def GoodParsed (pf : ParsedFile) : Prop :=
  (∀ l ∈ pf.vertices, startswith ['v', ' '] l = true) ∧
  (∀ l ∈ pf.texcoords, startswith ['v', 't', ' '] l = true) ∧
  (∀ l ∈ pf.normals, startswith ['v', 'n', ' '] l = true) ∧
  (∀ l ∈ pf.faces, startswith ['f', ' '] l = true)

/-- A small concrete input file used by the witness theorems. -/
def sampleCube : DirEntry :=
  ⟨"cube.obj".data, true,
    ["v 0 0 0".data, "vt 0 0".data, "vn 1 0 0".data, "f 1/1/1".data]⟩

/-- A second concrete input file used by the witness theorems. -/
def sampleA : DirEntry :=
  ⟨"a.obj".data, true, ["v 0 0 1".data, "v 0 0 2".data, "f 1 2".data]⟩

/-- A concrete input file with an unparsable face index, used by the
witness theorems. -/
def sampleBad : DirEntry := ⟨"bad.obj".data, true, ["f x".data]⟩

/-! ### Helper lemmas -/

theorem except_unit_dichotomy (x : Except Unit α) :
    x = .error () ∨ ∃ a, x = .ok a := by
  cases x with
  | error e => exact Or.inl (by rfl)
  | ok a => exact Or.inr ⟨a, rfl⟩

theorem renumberField_ok_iff {p : Str} {k off : Nat} {s : Str} :
    renumberField (p.splitOn '/') k off = .ok s ↔ fieldRenumbered p k off s := by
  by_cases hpres : fieldPresent p k
  · have hc : k < (p.splitOn '/').length ∧ (p.splitOn '/').getD k [] ≠ [] := hpres
    rw [renumberField, if_pos hc]
    cases hp : pyInt? (fieldAt p k) with
    | none =>
      rw [show pyInt? ((p.splitOn '/').getD k []) = none from hp]
      simp only [fieldRenumbered, hp]
      constructor
      · intro h; exact absurd h (by simp)
      · rintro ⟨h1, -⟩
        rcases h1 hpres with ⟨i, hi, -⟩
        exact absurd hi (by simp)
    | some i =>
      rw [show pyInt? ((p.splitOn '/').getD k []) = some i from hp]
      simp only [fieldRenumbered, hp]
      constructor
      · intro h
        refine ⟨fun _ => ⟨i, rfl, ?_⟩, fun hn => absurd hpres hn⟩
        injection h with h; exact h.symm
      · rintro ⟨h1, -⟩
        rcases h1 hpres with ⟨j, hj, hs⟩
        injection hj with hj
        subst hj; rw [hs]
  · have hc : ¬ (k < (p.splitOn '/').length ∧ (p.splitOn '/').getD k [] ≠ []) := hpres
    rw [renumberField, if_neg hc]
    simp only [fieldRenumbered]
    constructor
    · intro h
      injection h with h
      exact ⟨fun hpr => absurd hpr hpres, fun _ => h.symm⟩
    · rintro ⟨-, h2⟩
      rw [h2 hpres]

theorem renumberField_error_iff {p : Str} {k off : Nat} :
    renumberField (p.splitOn '/') k off = .error () ↔
      fieldPresent p k ∧ pyInt? (fieldAt p k) = none := by
  by_cases hpres : fieldPresent p k
  · have hc : k < (p.splitOn '/').length ∧ (p.splitOn '/').getD k [] ≠ [] := hpres
    rw [renumberField, if_pos hc]
    cases hp : pyInt? (fieldAt p k) with
    | none =>
      rw [show pyInt? ((p.splitOn '/').getD k []) = none from hp]
      simp [hpres]
    | some i =>
      rw [show pyInt? ((p.splitOn '/').getD k []) = some i from hp]
      simp [hp]
  · have hc : ¬ (k < (p.splitOn '/').length ∧ (p.splitOn '/').getD k [] ≠ []) := hpres
    rw [renumberField, if_neg hc]
    simp [hpres]

theorem renumberToken_ok_iff {vOff tOff nOff : Nat} {p q : Str} :
    renumberToken vOff tOff nOff p = .ok q ↔
      ∃ v t n : Str, fieldRenumbered p 0 vOff v ∧ fieldRenumbered p 1 tOff t ∧
        fieldRenumbered p 2 nOff n ∧ q = rebuildToken v t n := by
  constructor
  · intro h
    rw [renumberToken] at h
    cases h0 : renumberField (p.splitOn '/') 0 vOff with
    | error e => rw [h0] at h; exact absurd h (by simp)
    | ok v =>
      rw [h0] at h
      cases h1 : renumberField (p.splitOn '/') 1 tOff with
      | error e => rw [h1] at h; exact absurd h (by simp)
      | ok t =>
        rw [h1] at h
        cases h2 : renumberField (p.splitOn '/') 2 nOff with
        | error e => rw [h2] at h; exact absurd h (by simp)
        | ok n =>
          rw [h2] at h
          refine ⟨v, t, n, renumberField_ok_iff.mp h0, renumberField_ok_iff.mp h1,
            renumberField_ok_iff.mp h2, ?_⟩
          injection h with h; exact h.symm
  · rintro ⟨v, t, n, hv, ht, hn, rfl⟩
    rw [renumberToken, renumberField_ok_iff.mpr hv, renumberField_ok_iff.mpr ht,
      renumberField_ok_iff.mpr hn]

theorem renumberToken_error_iff {vOff tOff nOff : Nat} {p : Str} :
    renumberToken vOff tOff nOff p = .error () ↔
      ∃ k, k < 3 ∧ fieldPresent p k ∧ pyInt? (fieldAt p k) = none := by
  constructor
  · intro h
    rw [renumberToken] at h
    cases h0 : renumberField (p.splitOn '/') 0 vOff with
    | error e =>
      exact ⟨0, by omega, (@renumberField_error_iff p 0 vOff).mp (by rw [h0])⟩
    | ok v =>
      rw [h0] at h
      cases h1 : renumberField (p.splitOn '/') 1 tOff with
      | error e =>
        exact ⟨1, by omega, (@renumberField_error_iff p 1 tOff).mp (by rw [h1])⟩
      | ok t =>
        rw [h1] at h
        cases h2 : renumberField (p.splitOn '/') 2 nOff with
        | error e =>
          exact ⟨2, by omega, (@renumberField_error_iff p 2 nOff).mp (by rw [h2])⟩
        | ok n => rw [h2] at h; exact absurd h (by simp)
  · rintro ⟨k, hk3, hpres, hnone⟩
    rw [renumberToken]
    interval_cases k
    · rw [renumberField_error_iff.mpr ⟨hpres, hnone⟩]
    · cases h0 : renumberField (p.splitOn '/') 0 vOff with
      | error e => cases e; rfl
      | ok v => rw [renumberField_error_iff.mpr ⟨hpres, hnone⟩]
    · cases h0 : renumberField (p.splitOn '/') 0 vOff with
      | error e => cases e; rfl
      | ok v =>
        cases h1 : renumberField (p.splitOn '/') 1 tOff with
        | error e => cases e; rfl
        | ok t => rw [renumberField_error_iff.mpr ⟨hpres, hnone⟩]

theorem renumberToken_isOk_iff {vOff tOff nOff : Nat} {p : Str} :
    (∃ q, renumberToken vOff tOff nOff p = .ok q) ↔ goodToken p := by
  rcases except_unit_dichotomy (renumberToken vOff tOff nOff p) with herr | ⟨q, hq⟩
  · rw [renumberToken_error_iff] at herr
    rcases herr with ⟨k, hk3, hpres, hnone⟩
    constructor
    · rintro ⟨q, hq⟩
      have := (@renumberToken_error_iff vOff tOff nOff p).mpr ⟨k, hk3, hpres, hnone⟩
      rw [hq] at this; exact absurd this (by simp)
    · intro hgood
      have := hgood k hk3 hpres
      rw [hnone] at this; exact absurd this (by simp)
  · constructor
    · rintro - k hk3 hpres
      by_cases hnone : pyInt? (fieldAt p k) = none
      · have := (@renumberToken_error_iff vOff tOff nOff p).mpr ⟨k, hk3, hpres, hnone⟩
        rw [hq] at this; exact absurd this (by simp)
      · exact Option.isSome_iff_ne_none.mpr hnone
    · intro _; exact ⟨q, hq⟩

theorem mapExcept_ok_iff {f : α → Except Unit β} {xs : List α} {ys : List β} :
    mapExcept f xs = .ok ys ↔ List.Forall₂ (fun x y => f x = .ok y) xs ys := by
  induction xs generalizing ys with
  | nil =>
    cases ys with
    | nil => simp [mapExcept]
    | cons y ys => simp [mapExcept]
  | cons x xs ih =>
    rw [mapExcept]
    cases hf : f x with
    | error e =>
      constructor
      · intro h; exact absurd h (by simp)
      · intro h
        rcases List.forall₂_cons_left_iff.mp h with ⟨y, ys', hy, -, rfl⟩
        rw [hf] at hy; exact absurd hy (by simp)
    | ok y =>
      cases hrest : mapExcept f xs with
      | error e =>
        constructor
        · intro h; exact absurd h (by simp)
        · intro h
          rcases List.forall₂_cons_left_iff.mp h with ⟨y', ys', -, hys', rfl⟩
          have := ih.mpr hys'
          rw [hrest] at this; exact absurd this (by simp)
      | ok zs =>
        constructor
        · intro h
          injection h with h
          subst h
          exact List.Forall₂.cons hf (ih.mp hrest)
        · intro h
          rcases List.forall₂_cons_left_iff.mp h with ⟨y', ys', hy', hys', rfl⟩
          rw [hf] at hy'
          injection hy' with hy'
          have := ih.mpr hys'
          rw [hrest] at this
          injection this with this
          rw [hy', this]

theorem mapExcept_error_iff {f : α → Except Unit β} {xs : List α} :
    mapExcept f xs = .error () ↔ ∃ x ∈ xs, f x = .error () := by
  induction xs with
  | nil => simp [mapExcept]
  | cons x xs ih =>
    rw [mapExcept]
    cases hf : f x with
    | error e =>
      cases e
      simp only [List.mem_cons]
      exact ⟨fun _ => ⟨x, Or.inl rfl, hf⟩, fun _ => trivial⟩
    | ok y =>
      cases hrest : mapExcept f xs with
      | error e =>
        cases e
        simp only [List.mem_cons]
        rcases ih.mp hrest with ⟨x', hx', hfx'⟩
        exact ⟨fun _ => ⟨x', Or.inr hx', hfx'⟩, fun _ => trivial⟩
      | ok zs =>
        constructor
        · intro h; exact absurd h (by simp)
        · rintro ⟨x', hx', hfx'⟩
          rcases List.mem_cons.mp hx' with rfl | hmem
          · rw [hf] at hfx'; exact absurd hfx' (by simp)
          · have := ih.mpr ⟨x', hmem, hfx'⟩
            rw [hrest] at this; exact absurd this (by simp)

theorem mapExcept_isOk_iff {f : α → Except Unit β} {xs : List α} :
    (∃ ys, mapExcept f xs = .ok ys) ↔ ∀ x ∈ xs, ∃ y, f x = .ok y := by
  constructor
  · rintro ⟨ys, hys⟩ x hx
    rcases except_unit_dichotomy (f x) with herr | hok
    · have := mapExcept_error_iff.mpr ⟨x, hx, herr⟩
      rw [hys] at this; exact absurd this (by simp)
    · exact hok
  · intro h
    rcases except_unit_dichotomy (mapExcept f xs) with herr | hok
    · rcases mapExcept_error_iff.mp herr with ⟨x, hx, hfx⟩
      rcases h x hx with ⟨y, hy⟩
      rw [hfx] at hy; exact absurd hy (by simp)
    · exact hok

/-! ### Digit-rendering facts -/

theorem digitChar_ne_slash (d : Nat) : digitChar d ≠ '/' := by
  unfold digitChar
  split <;> decide

theorem slash_not_mem_natToCharsAux (fuel n : Nat) :
    '/' ∉ natToCharsAux fuel n := by
  induction fuel generalizing n with
  | zero => simp [natToCharsAux]
  | succ fuel ih =>
    rw [natToCharsAux]
    split
    · simp only [List.mem_singleton]
      exact fun h => digitChar_ne_slash n h.symm
    · intro h
      rcases List.mem_append.mp h with h | h
      · exact ih _ h
      · exact digitChar_ne_slash _ (List.mem_singleton.mp h).symm

theorem slash_not_mem_intToChars (i : Int) : '/' ∉ intToChars i := by
  cases i with
  | ofNat n => exact slash_not_mem_natToCharsAux _ _
  | negSucc n =>
    intro h
    rcases List.mem_cons.mp h with h | h
    · exact absurd h (by decide)
    · exact slash_not_mem_natToCharsAux _ _ h

theorem natToChars_ne_nil (n : Nat) : natToChars n ≠ [] := by
  rw [natToChars, natToCharsAux]
  split
  · simp
  · simp

theorem intToChars_ne_nil (i : Int) : intToChars i ≠ [] := by
  cases i with
  | ofNat n => exact natToChars_ne_nil n
  | negSucc n => simp [intToChars]

/-! ### Classification invariants -/

theorem classifyLine_good {pf : ParsedFile} (h : GoodParsed pf) (raw : Str) :
    GoodParsed (classifyLine pf raw) := by
  obtain ⟨hv, ht, hn, hf⟩ := h
  simp only [classifyLine]
  split_ifs with h1 h2 h3 h4 h5 h6
  · exact ⟨hv, ht, hn, hf⟩
  · exact ⟨hv, ht, hn, hf⟩
  · refine ⟨fun l hl => ?_, ht, hn, hf⟩
    rcases List.mem_append.mp hl with hl | hl
    · exact hv l hl
    · rw [List.mem_singleton.mp hl]; exact h3
  · refine ⟨hv, fun l hl => ?_, hn, hf⟩
    rcases List.mem_append.mp hl with hl | hl
    · exact ht l hl
    · rw [List.mem_singleton.mp hl]; exact h4
  · refine ⟨hv, ht, fun l hl => ?_, hf⟩
    rcases List.mem_append.mp hl with hl | hl
    · exact hn l hl
    · rw [List.mem_singleton.mp hl]; exact h5
  · refine ⟨hv, ht, hn, fun l hl => ?_⟩
    rcases List.mem_append.mp hl with hl | hl
    · exact hf l hl
    · rw [List.mem_singleton.mp hl]; exact h6
  · exact ⟨hv, ht, hn, hf⟩

theorem foldl_classifyLine_good (ls : List Str) (pf : ParsedFile)
    (h : GoodParsed pf) : GoodParsed (ls.foldl classifyLine pf) := by
  induction ls generalizing pf with
  | nil => exact h
  | cons l ls ih => exact ih _ (classifyLine_good h l)

theorem parseLines_good (ls : List Str) : GoodParsed (parseLines ls) :=
  foldl_classifyLine_good ls _
    ⟨fun _ h => absurd h (List.not_mem_nil _), fun _ h => absurd h (List.not_mem_nil _),
     fun _ h => absurd h (List.not_mem_nil _), fun _ h => absurd h (List.not_mem_nil _)⟩

/-! ### `startswith` facts -/

theorem startswith_exists {pre l : Str} (h : startswith pre l = true) :
    ∃ rest, l = pre ++ rest := by
  rcases List.isPrefixOf_iff_prefix.mp h with ⟨rest, hrest⟩
  exact ⟨rest, hrest.symm⟩

theorem startswith_append (pre x : Str) : startswith pre (pre ++ x) = true :=
  List.isPrefixOf_iff_prefix.mpr ⟨x, rfl⟩

theorem startswith_false_of_head_ne {a b : Char} {pre l : Str} (hab : a ≠ b) :
    startswith (a :: pre) (b :: l) = false := by
  apply Bool.eq_false_iff.mpr
  intro hcon
  rcases startswith_exists hcon with ⟨rest, heq⟩
  simp only [List.cons_append] at heq
  injection heq with h1 _
  exact hab h1.symm

theorem startswith_false_of_second_ne {a b c : Char} {pre l : Str}
    (hbc : b ≠ c) : startswith (a :: b :: pre) (a :: c :: l) = false := by
  apply Bool.eq_false_iff.mpr
  intro hcon
  rcases startswith_exists hcon with ⟨rest, heq⟩
  simp only [List.cons_append] at heq
  injection heq with _ heq
  injection heq with h2 _
  exact hbc h2.symm

theorem not_v_of_vt {l : Str} (h : startswith ['v', 't', ' '] l = true) :
    startswith ['v', ' '] l = false := by
  rcases startswith_exists h with ⟨rest, rfl⟩
  exact startswith_false_of_second_ne (by decide)

theorem not_v_of_vn {l : Str} (h : startswith ['v', 'n', ' '] l = true) :
    startswith ['v', ' '] l = false := by
  rcases startswith_exists h with ⟨rest, rfl⟩
  exact startswith_false_of_second_ne (by decide)

theorem not_v_of_f {l : Str} (h : startswith ['f', ' '] l = true) :
    startswith ['v', ' '] l = false := by
  rcases startswith_exists h with ⟨rest, rfl⟩
  exact startswith_false_of_head_ne (by decide)

/-! ### The string order used by the sort -/

theorem strLe_total (a b : Str) : strLe a b = true ∨ strLe b a = true := by
  induction a generalizing b with
  | nil => exact Or.inl rfl
  | cons x xs ih =>
    cases b with
    | nil => exact Or.inr rfl
    | cons y ys =>
      by_cases h1 : x.toNat < y.toNat
      · left; simp only [strLe]; rw [if_pos h1]
      · by_cases h2 : y.toNat < x.toNat
        · right; simp only [strLe]; rw [if_pos h2]
        · rcases ih ys with h | h
          · left; simp only [strLe]; rw [if_neg h1, if_neg h2]; exact h
          · right; simp only [strLe]; rw [if_neg h2, if_neg h1]; exact h

theorem strLe_trans {a b c : Str} (hab : strLe a b = true)
    (hbc : strLe b c = true) : strLe a c = true := by
  induction a generalizing b c with
  | nil => rfl
  | cons x xs ih =>
    cases b with
    | nil => exact absurd hab (by simp [strLe])
    | cons y ys =>
      cases c with
      | nil => exact absurd hbc (by simp [strLe])
      | cons z zs =>
        simp only [strLe] at hab hbc ⊢
        by_cases hxy : x.toNat < y.toNat
        · rw [if_pos hxy] at hab
          by_cases hyz : y.toNat < z.toNat
          · rw [if_pos (by omega : x.toNat < z.toNat)]
          · rw [if_neg hyz] at hbc
            by_cases hzy : z.toNat < y.toNat
            · rw [if_pos hzy] at hbc; exact absurd hbc (by simp)
            · rw [if_pos (by omega : x.toNat < z.toNat)]
        · rw [if_neg hxy] at hab
          by_cases hyx : y.toNat < x.toNat
          · rw [if_pos hyx] at hab; exact absurd hab (by simp)
          · rw [if_neg hyx] at hab
            by_cases hyz : y.toNat < z.toNat
            · rw [if_pos (by omega : x.toNat < z.toNat)]
            · rw [if_neg hyz] at hbc
              by_cases hzy : z.toNat < y.toNat
              · rw [if_pos hzy] at hbc; exact absurd hbc (by simp)
              · rw [if_neg hzy] at hbc
                rw [if_neg (by omega : ¬ x.toNat < z.toNat),
                  if_neg (by omega : ¬ z.toNat < x.toNat)]
                exact ih hab hbc

theorem strLe_antisymm {a b : Str} (hab : strLe a b = true)
    (hba : strLe b a = true) : a = b := by
  induction a generalizing b with
  | nil =>
    cases b with
    | nil => rfl
    | cons y ys => exact absurd hba (by simp [strLe])
  | cons x xs ih =>
    cases b with
    | nil => exact absurd hab (by simp [strLe])
    | cons y ys =>
      simp only [strLe] at hab hba
      by_cases hxy : x.toNat < y.toNat
      · rw [if_neg (by omega : ¬ y.toNat < x.toNat), if_pos hxy] at hba
        exact absurd hba (by simp)
      · rw [if_neg hxy] at hab
        by_cases hyx : y.toNat < x.toNat
        · rw [if_pos hyx] at hab; exact absurd hab (by simp)
        · rw [if_neg hyx] at hab
          rw [if_neg hyx, if_neg hxy] at hba
          have hval : x = y := by
            apply Char.ext
            apply UInt32.toNat.inj
            simp only [Char.toNat] at hxy hyx
            omega
          rw [hval, ih hab hba]

/-! ### Decomposition of the merge loop -/

theorem mergeFilesFrom_ok {files : List (Str × List Str)} {offs : Offsets}
    {out : List Str} (h : mergeFilesFrom offs files = .ok out) :
    ∃ blocks : List (List Str), blocks.length = files.length ∧
      out = blocks.flatten ∧
      ∀ k (hk : k < files.length),
        fileBlock (((files.take k).map Prod.snd).foldl advanceOffsets offs)
          (files.get ⟨k, hk⟩).1 (files.get ⟨k, hk⟩).2 = .ok (blocks.getD k []) := by
  induction files generalizing offs out with
  | nil =>
    refine ⟨[], rfl, ?_, fun k hk => absurd hk (by simp)⟩
    rw [mergeFilesFrom] at h
    injection h with h
    rw [← h]; rfl
  | cons f rest ih =>
    obtain ⟨name, content⟩ := f
    rw [mergeFilesFrom] at h
    cases hb : fileBlock offs name content with
    | error e => rw [hb] at h; exact absurd h (by simp)
    | ok b =>
      rw [hb] at h
      cases hr : mergeFilesFrom (advanceOffsets offs content) rest with
      | error e => rw [hr] at h; exact absurd h (by simp)
      | ok r =>
        rw [hr] at h
        injection h with h
        rcases ih hr with ⟨blocks, hlen, hflat, hblocks⟩
        refine ⟨b :: blocks, by simp [hlen], ?_, ?_⟩
        · rw [← h, hflat]; rfl
        · intro k hk
          cases k with
          | zero => simpa using hb
          | succ k =>
            have hk' : k < rest.length := by simpa using hk
            have := hblocks k hk'
            simpa using this

theorem foldl_advanceOffsets (offs : Offsets) (cs : List (List Str)) :
    cs.foldl advanceOffsets offs =
      ⟨offs.vertex + (cs.map (fun c => (parseLines c).vertices.length)).sum,
       offs.tex + (cs.map (fun c => (parseLines c).texcoords.length)).sum,
       offs.norm + (cs.map (fun c => (parseLines c).normals.length)).sum⟩ := by
  induction cs generalizing offs with
  | nil => simp
  | cons c cs ih =>
    rw [List.foldl_cons, ih]
    simp [advanceOffsets, Nat.add_assoc]

theorem renumberFace_ok_iff {vOff tOff nOff : Nat} {line out : Str} :
    renumberFace vOff tOff nOff line = .ok out ↔
      ∃ toks, List.Forall₂ (fun p q => renumberToken vOff tOff nOff p = .ok q)
          ((pySplitWs line).drop 1) toks ∧
        out = ['f', ' '] ++ List.intercalate [' '] toks := by
  rw [renumberFace]
  cases hm : mapExcept (renumberToken vOff tOff nOff) ((pySplitWs line).drop 1) with
  | error e =>
    constructor
    · intro h; exact absurd h (by simp)
    · rintro ⟨toks, htoks, rfl⟩
      have := mapExcept_ok_iff.mpr htoks
      rw [hm] at this; exact absurd this (by simp)
  | ok toks =>
    constructor
    · intro h
      injection h with h
      exact ⟨toks, mapExcept_ok_iff.mp hm, h.symm⟩
    · rintro ⟨toks', htoks', rfl⟩
      have := mapExcept_ok_iff.mpr htoks'
      rw [hm] at this
      injection this with this
      rw [this]

theorem fileBlock_ok_iff {offs : Offsets} {name : Str} {content : List Str}
    {b : List Str} :
    fileBlock offs name content = .ok b ↔
      ∃ newFaces,
        List.Forall₂ (fun fl nf =>
            renumberFace offs.vertex offs.tex offs.norm fl = .ok nf)
          (parseLines content).faces newFaces ∧
        b = (['o', ' '] ++ splitextBase name) :: (['g', ' '] ++ splitextBase name) ::
            ((parseLines content).vertices ++ (parseLines content).texcoords ++
             (parseLines content).normals ++ newFaces) := by
  simp only [fileBlock]
  cases hm : mapExcept (renumberFace offs.vertex offs.tex offs.norm)
      (parseLines content).faces with
  | error e =>
    constructor
    · intro h; exact absurd h (by simp)
    · rintro ⟨newFaces, hnf, rfl⟩
      have := mapExcept_ok_iff.mpr hnf
      rw [hm] at this; exact absurd this (by simp)
  | ok newFaces =>
    constructor
    · intro h
      injection h with h
      exact ⟨newFaces, mapExcept_ok_iff.mp hm, h.symm⟩
    · rintro ⟨newFaces', hnf', rfl⟩
      have := mapExcept_ok_iff.mpr hnf'
      rw [hm] at this
      injection this with this
      rw [this]

theorem renumberFace_isOk_iff {vOff tOff nOff : Nat} {line : Str} :
    (∃ out, renumberFace vOff tOff nOff line = .ok out) ↔
      ∀ p ∈ (pySplitWs line).drop 1, ∃ q, renumberToken vOff tOff nOff p = .ok q := by
  rw [← mapExcept_isOk_iff]
  constructor
  · rintro ⟨out, hout⟩
    rw [renumberFace] at hout
    cases hm : mapExcept (renumberToken vOff tOff nOff) ((pySplitWs line).drop 1) with
    | error e => rw [hm] at hout; exact absurd hout (by simp)
    | ok toks => exact ⟨toks, rfl⟩
  · rintro ⟨toks, htoks⟩
    exact ⟨_, renumberFace_ok_iff.mpr ⟨toks, mapExcept_ok_iff.mp htoks, rfl⟩⟩

theorem fileBlock_isOk_iff {offs : Offsets} {name : Str} {content : List Str} :
    (∃ b, fileBlock offs name content = .ok b) ↔
      ∀ fl ∈ (parseLines content).faces, ∀ p ∈ (pySplitWs fl).drop 1,
        goodToken p := by
  have h1 : (∃ b, fileBlock offs name content = .ok b) ↔
      (∃ nf, mapExcept (renumberFace offs.vertex offs.tex offs.norm)
        (parseLines content).faces = .ok nf) := by
    constructor
    · rintro ⟨b, hb⟩
      simp only [fileBlock] at hb
      cases hm : mapExcept (renumberFace offs.vertex offs.tex offs.norm)
          (parseLines content).faces with
      | error e => rw [hm] at hb; exact absurd hb (by simp)
      | ok nf => exact ⟨nf, rfl⟩
    · rintro ⟨nf, hnf⟩
      exact ⟨_, fileBlock_ok_iff.mpr ⟨nf, mapExcept_ok_iff.mp hnf, rfl⟩⟩
  rw [h1, mapExcept_isOk_iff]
  constructor
  · intro h fl hfl p hp
    rcases (renumberFace_isOk_iff.mp (h fl hfl)) p hp with ⟨q, hq⟩
    exact renumberToken_isOk_iff.mp ⟨q, hq⟩
  · intro h fl hfl
    exact renumberFace_isOk_iff.mpr
      (fun p hp => renumberToken_isOk_iff.mpr (h fl hfl p hp))

theorem mergeFilesFrom_isOk_iff {offs : Offsets} {files : List (Str × List Str)} :
    (∃ out, mergeFilesFrom offs files = .ok out) ↔
      ∀ f ∈ files, ∀ fl ∈ (parseLines f.2).faces, ∀ p ∈ (pySplitWs fl).drop 1,
        goodToken p := by
  induction files generalizing offs with
  | nil =>
    constructor
    · intro _ f hf; exact absurd hf (List.not_mem_nil f)
    · intro _; exact ⟨[], rfl⟩
  | cons f rest ih =>
    obtain ⟨name, content⟩ := f
    constructor
    · rintro ⟨out, hout⟩ g hg
      rw [mergeFilesFrom] at hout
      cases hb : fileBlock offs name content with
      | error e => rw [hb] at hout; exact absurd hout (by simp)
      | ok b =>
        rw [hb] at hout
        cases hr : mergeFilesFrom (advanceOffsets offs content) rest with
        | error e => rw [hr] at hout; exact absurd hout (by simp)
        | ok r =>
          rcases List.mem_cons.mp hg with rfl | hmem
          · exact fileBlock_isOk_iff.mp ⟨b, hb⟩
          · exact (ih.mp ⟨r, hr⟩) g hmem
    · intro h
      have hb : ∃ b, fileBlock offs name content = .ok b :=
        fileBlock_isOk_iff.mpr (h (name, content) (List.mem_cons_self _ _))
      have hr : ∃ r, mergeFilesFrom (advanceOffsets offs content) rest = .ok r :=
        ih.mpr (fun g hg => h g (List.mem_cons_of_mem _ hg))
      rcases hb with ⟨b, hb⟩
      rcases hr with ⟨r, hr⟩
      refine ⟨b ++ r, ?_⟩
      rw [mergeFilesFrom, hb, hr]

/-! ### Determinism of the sorted selection -/

theorem sorted_selectObjFiles (entries : List DirEntry) :
    (selectObjFiles entries).Pairwise nameLe := by
  haveI : IsTotal DirEntry nameLe := ⟨fun a b => strLe_total a.name b.name⟩
  haveI : IsTrans DirEntry nameLe := ⟨fun _ _ _ hab hbc => strLe_trans hab hbc⟩
  exact List.sorted_insertionSort nameLe (entries.filter isObjEntry)

theorem selectObjFiles_perm (entries : List DirEntry) :
    (selectObjFiles entries).Perm (entries.filter isObjEntry) :=
  List.perm_insertionSort nameLe (entries.filter isObjEntry)

theorem selectObjFiles_eq_of_perm {e₁ e₂ : List DirEntry} (hperm : e₁.Perm e₂)
    (hnodup : (e₁.map DirEntry.name).Nodup) :
    selectObjFiles e₁ = selectObjFiles e₂ := by
  have hpf : (e₁.filter isObjEntry).Perm (e₂.filter isObjEntry) :=
    hperm.filter isObjEntry
  have hp : (selectObjFiles e₁).Perm (selectObjFiles e₂) :=
    ((selectObjFiles_perm e₁).trans hpf).trans (selectObjFiles_perm e₂).symm
  have hnodup₂ : (e₂.map DirEntry.name).Nodup :=
    ((hperm.map DirEntry.name).nodup_iff).mp hnodup
  have hnn : ∀ e : List DirEntry, (e.map DirEntry.name).Nodup →
      ((selectObjFiles e).map DirEntry.name).Nodup := by
    intro e hnd
    have hsub : ((e.filter isObjEntry).map DirEntry.name).Sublist
        (e.map DirEntry.name) := (List.filter_sublist e).map DirEntry.name
    exact (((selectObjFiles_perm e).map DirEntry.name).nodup_iff).mpr
      (hnd.sublist hsub)
  have hpw₁ : (selectObjFiles e₁).Pairwise (fun a b => a.name ≠ b.name) :=
    List.pairwise_map.mp (hnn e₁ hnodup)
  have hpw₂ : (selectObjFiles e₂).Pairwise (fun a b => a.name ≠ b.name) :=
    List.pairwise_map.mp (hnn e₂ hnodup₂)
  haveI : IsAntisymm DirEntry (fun a b => nameLe a b ∧ a.name ≠ b.name) :=
    ⟨fun _ _ hab hba => absurd (strLe_antisymm hab.1 hba.1) hab.2⟩
  exact List.eq_of_perm_of_sorted hp
    ((sorted_selectObjFiles e₁).and hpw₁) ((sorted_selectObjFiles e₂).and hpw₂)

/-! ### Counting vertex lines -/

theorem countVertexLines_append (a b : List Str) :
    countVertexLines (a ++ b) = countVertexLines a + countVertexLines b := by
  simp [countVertexLines, List.filter_append]

theorem countVertexLines_eq_length {ls : List Str}
    (h : ∀ l ∈ ls, startswith ['v', ' '] l = true) :
    countVertexLines ls = ls.length := by
  unfold countVertexLines
  rw [List.filter_eq_self.mpr h]

theorem countVertexLines_eq_zero {ls : List Str}
    (h : ∀ l ∈ ls, startswith ['v', ' '] l = false) :
    countVertexLines ls = 0 := by
  unfold countVertexLines
  rw [List.filter_eq_nil_iff.mpr (fun a ha => by rw [h a ha]; simp)]
  rfl

theorem newFaces_start_f {vOff tOff nOff : Nat} {faces newFaces : List Str}
    (hnf : List.Forall₂ (fun fl nf => renumberFace vOff tOff nOff fl = .ok nf)
      faces newFaces) :
    ∀ l ∈ newFaces, startswith ['f', ' '] l = true := by
  intro l hl
  rcases List.forall₂_iff_get.mp hnf with ⟨hlen, hget⟩
  rcases List.mem_iff_get.mp hl with ⟨⟨j, hj⟩, rfl⟩
  have := hget j (by omega) hj
  rcases renumberFace_ok_iff.mp this with ⟨toks, -, heq⟩
  rw [heq]
  exact startswith_append _ _

theorem countVertexLines_fileBlock {offs : Offsets} {name : Str}
    {content : List Str} {b : List Str} (hb : fileBlock offs name content = .ok b) :
    countVertexLines b = (parseLines content).vertices.length := by
  rcases fileBlock_ok_iff.mp hb with ⟨newFaces, hnf, rfl⟩
  obtain ⟨hv, ht, hn, hf⟩ := parseLines_good content
  have ho : startswith ['v', ' '] (['o', ' '] ++ splitextBase name) = false := by
    simp only [List.cons_append]
    exact startswith_false_of_head_ne (by decide)
  have hg : startswith ['v', ' '] (['g', ' '] ++ splitextBase name) = false := by
    simp only [List.cons_append]
    exact startswith_false_of_head_ne (by decide)
  have hcount : ∀ x : Str, startswith ['v', ' '] x = false →
      ∀ rest : List Str, countVertexLines (x :: rest) = countVertexLines rest := by
    intro x hx rest
    unfold countVertexLines
    rw [List.filter_cons_of_neg (by rw [hx]; simp)]
  rw [hcount _ ho, hcount _ hg, countVertexLines_append,
    countVertexLines_append, countVertexLines_append,
    countVertexLines_eq_length hv,
    countVertexLines_eq_zero (fun l hl => not_v_of_vt (ht l hl)),
    countVertexLines_eq_zero (fun l hl => not_v_of_vn (hn l hl)),
    countVertexLines_eq_zero (fun l hl => not_v_of_f (newFaces_start_f hnf l hl))]
  omega

/-! ### `splitOn` over rebuilt tokens -/

theorem splitOn_no_slash {v : Str} (hv : '/' ∉ v) : v.splitOn '/' = [v] := by
  unfold List.splitOn
  apply List.splitOnP_eq_single
  intro x hx
  simp only [beq_iff_eq]
  exact fun h => hv (h ▸ hx)

theorem splitOn_append_slash {v rest : Str} (hv : '/' ∉ v) :
    (v ++ '/' :: rest).splitOn '/' = v :: rest.splitOn '/' := by
  unfold List.splitOn
  have h : ∀ x ∈ v, ¬((x == '/') = true) := by
    intro x hx
    simp only [beq_iff_eq]
    exact fun hh => hv (hh ▸ hx)
  exact List.splitOnP_first (fun x => x == '/') v h '/' (by simp) rest

/-! ### Merged-output decomposition -/

theorem fieldRenumbered_no_slash {p : Str} {k off : Nat} {s : Str}
    (h : fieldRenumbered p k off s) : '/' ∉ s := by
  by_cases hp : fieldPresent p k
  · rcases h.1 hp with ⟨i, -, rfl⟩
    exact slash_not_mem_intToChars _
  · rw [h.2 hp]
    simp

theorem mergeDirectory_ok_decomp {entries : List DirEntry} {out : List Str}
    (h : mergeDirectory entries = .ok out) :
    ∃ blocks : List (List Str),
      blocks.length = (selectObjFiles entries).length ∧
      out = headerLine :: [] :: blocks.flatten ∧
      ∀ k (hk : k < (selectObjFiles entries).length),
        fileBlock (offsetsBefore (selectObjFiles entries) k)
          ((selectObjFiles entries).get ⟨k, hk⟩).name
          ((selectObjFiles entries).get ⟨k, hk⟩).content = .ok (blocks.getD k []) := by
  rw [mergeDirectory] at h
  cases hm : mergeFilesFrom ⟨0, 0, 0⟩
      ((selectObjFiles entries).map (fun e => (e.name, e.content))) with
  | error e => rw [hm] at h; exact absurd h (by simp)
  | ok blocks0 =>
    rw [hm] at h
    injection h with h
    rcases mergeFilesFrom_ok hm with ⟨blocks, hlen, hflat, hblocks⟩
    have hsel : ((selectObjFiles entries).map (fun e => (e.name, e.content))).length =
        (selectObjFiles entries).length := by simp
    refine ⟨blocks, by rw [hlen, hsel], by rw [← h, hflat], ?_⟩
    intro k hk
    have hk' : k < ((selectObjFiles entries).map (fun e => (e.name, e.content))).length := by
      rw [hsel]; exact hk
    have := hblocks k hk'
    have hoffs : (((((selectObjFiles entries).map (fun e => (e.name, e.content))).take k).map
        Prod.snd).foldl advanceOffsets ⟨0, 0, 0⟩) =
        offsetsBefore (selectObjFiles entries) k := by
      rw [← List.map_take, List.map_map, foldl_advanceOffsets]
      simp only [List.map_map, offsetsBefore, Nat.zero_add]
      rfl
    rw [hoffs] at this
    have hget : ((selectObjFiles entries).map (fun e => (e.name, e.content))).get ⟨k, hk'⟩ =
        (((selectObjFiles entries).get ⟨k, hk⟩).name,
         ((selectObjFiles entries).get ⟨k, hk⟩).content) := by
      simp
    rw [hget] at this
    exact this

/-! ### The claims -/

/-- C6: a directory with no `.obj` files yields exactly the two-line
header (the comment line `# Merged OBJ file` and one blank line) and
nothing else; and every successful merge output begins with that
two-line header. -/
theorem c6_two_line_header (entries : List DirEntry) :
    (entries.filter isObjEntry = [] →
      mergeDirectory entries = .ok [headerLine, []]) ∧
    (∀ out, mergeDirectory entries = .ok out →
      out.take 2 = [headerLine, []]) := by
  constructor
  · intro hempty
    have hsel : selectObjFiles entries = [] := by
      rw [selectObjFiles, hempty]
      rfl
    rw [mergeDirectory, hsel]
    rfl
  · intro out hout
    rw [mergeDirectory] at hout
    cases hm : mergeFilesFrom ⟨0, 0, 0⟩
        ((selectObjFiles entries).map (fun e => (e.name, e.content))) with
    | error e => rw [hm] at hout; exact absurd hout (by simp)
    | ok blocks =>
      rw [hm] at hout
      injection hout with h
      rw [← h]
      rfl

theorem c6_witness :
    [DirEntry.mk "notes.txt".data true ["v 0 0 0".data]].filter isObjEntry = [] ∧
    mergeDirectory [DirEntry.mk "notes.txt".data true ["v 0 0 0".data]] =
      .ok [headerLine, []] :=
  ⟨by decide, (c6_two_line_header _).1 (by decide)⟩

/-- C7: every block of the merged output is the object header
`o <basename>`, the group header `g <basename>`, the file's vertex lines,
texcoord lines and normal lines verbatim as parsed, then its renumbered
face lines, in that fixed order. -/
theorem c7_block_layout {entries : List DirEntry} {out : List Str}
    (h : mergeDirectory entries = .ok out) :
    ∃ blocks : List (List Str),
      blocks.length = (selectObjFiles entries).length ∧
      out = headerLine :: [] :: blocks.flatten ∧
      ∀ k (hk : k < (selectObjFiles entries).length),
        ∃ newFaces : List Str,
          blocks.getD k [] =
            (['o', ' '] ++ splitextBase ((selectObjFiles entries).get ⟨k, hk⟩).name) ::
            (['g', ' '] ++ splitextBase ((selectObjFiles entries).get ⟨k, hk⟩).name) ::
            ((parseLines ((selectObjFiles entries).get ⟨k, hk⟩).content).vertices ++
             (parseLines ((selectObjFiles entries).get ⟨k, hk⟩).content).texcoords ++
             (parseLines ((selectObjFiles entries).get ⟨k, hk⟩).content).normals ++
             newFaces) ∧
          List.Forall₂ (fun fl nf =>
              renumberFace (offsetsBefore (selectObjFiles entries) k).vertex
                (offsetsBefore (selectObjFiles entries) k).tex
                (offsetsBefore (selectObjFiles entries) k).norm fl = .ok nf)
            (parseLines ((selectObjFiles entries).get ⟨k, hk⟩).content).faces
            newFaces := by
  rcases mergeDirectory_ok_decomp h with ⟨blocks, hlen, hflat, hblocks⟩
  refine ⟨blocks, hlen, hflat, ?_⟩
  intro k hk
  rcases fileBlock_ok_iff.mp (hblocks k hk) with ⟨newFaces, hnf, heq⟩
  exact ⟨newFaces, heq, hnf⟩

theorem c7_witness :
    ∃ blocks : List (List Str),
      blocks.length = (selectObjFiles [sampleCube]).length ∧
      [headerLine, [], "o cube".data, "g cube".data, "v 0 0 0".data,
          "vt 0 0".data, "vn 1 0 0".data, "f 1/1/1".data] =
        headerLine :: [] :: blocks.flatten ∧
      ∀ k (hk : k < (selectObjFiles [sampleCube]).length),
        ∃ newFaces : List Str,
          blocks.getD k [] =
            (['o', ' '] ++ splitextBase ((selectObjFiles [sampleCube]).get ⟨k, hk⟩).name) ::
            (['g', ' '] ++ splitextBase ((selectObjFiles [sampleCube]).get ⟨k, hk⟩).name) ::
            ((parseLines ((selectObjFiles [sampleCube]).get ⟨k, hk⟩).content).vertices ++
             (parseLines ((selectObjFiles [sampleCube]).get ⟨k, hk⟩).content).texcoords ++
             (parseLines ((selectObjFiles [sampleCube]).get ⟨k, hk⟩).content).normals ++
             newFaces) ∧
          List.Forall₂ (fun fl nf =>
              renumberFace (offsetsBefore (selectObjFiles [sampleCube]) k).vertex
                (offsetsBefore (selectObjFiles [sampleCube]) k).tex
                (offsetsBefore (selectObjFiles [sampleCube]) k).norm fl = .ok nf)
            (parseLines ((selectObjFiles [sampleCube]).get ⟨k, hk⟩).content).faces
            newFaces :=
  c7_block_layout (by decide)

/-- C8: a face token with no slash is re-emitted as the bare
offset-adjusted vertex index, with no slash appearing in the output
token. -/
theorem c8_bare_vertex_token {vOff tOff nOff : Nat} {p q : Str}
    (hne : p ≠ []) (hslash : '/' ∉ p)
    (h : renumberToken vOff tOff nOff p = .ok q) :
    ∃ i, pyInt? p = some i ∧ q = intToChars (i + (vOff : Int)) ∧ '/' ∉ q := by
  have hsplit : p.splitOn '/' = [p] := splitOn_no_slash hslash
  rcases renumberToken_ok_iff.mp h with ⟨v, t, n, hv, ht, hn, rfl⟩
  have hp0 : fieldPresent p 0 := by
    refine ⟨by rw [hsplit]; simp, ?_⟩
    rw [fieldAt, hsplit]
    simpa using hne
  have hp1 : ¬ fieldPresent p 1 := by
    rw [fieldPresent, hsplit]
    simp
  have hp2 : ¬ fieldPresent p 2 := by
    rw [fieldPresent, hsplit]
    simp
  have ht' : t = [] := ht.2 hp1
  have hn' : n = [] := hn.2 hp2
  rcases hv.1 hp0 with ⟨i, hi, hv'⟩
  rw [fieldAt, hsplit] at hi
  refine ⟨i, by simpa using hi, ?_, ?_⟩
  · rw [rebuildToken, if_pos ⟨ht', hn'⟩, hv']
  · rw [rebuildToken, if_pos ⟨ht', hn'⟩, hv']
    exact slash_not_mem_intToChars _

theorem c8_witness :
    ∃ i, pyInt? "7".data = some i ∧
      ("12".data : Str) = intToChars (i + ((5 : Nat) : Int)) ∧
      '/' ∉ ("12".data : Str) :=
  @c8_bare_vertex_token 5 0 0 "7".data "12".data (by decide) (by decide) (by decide)

/-- C2: a face token whose texcoord field is empty but whose normal
field is present keeps its double slash: it is re-emitted as
`v'//n'` (with the two offset-adjusted indices around an empty texcoord
position), and not as the collapsed `v'/n'`. -/
theorem c2_double_slash_preserved {vOff tOff nOff : Nat} {p q : Str}
    (h0 : fieldPresent p 0) (h1 : fieldAt p 1 = []) (h2 : fieldPresent p 2)
    (h : renumberToken vOff tOff nOff p = .ok q) :
    ∃ i nIdx, pyInt? (fieldAt p 0) = some i ∧ pyInt? (fieldAt p 2) = some nIdx ∧
      q = intToChars (i + (vOff : Int)) ++ ['/', '/'] ++
          intToChars (nIdx + (nOff : Int)) ∧
      q ≠ intToChars (i + (vOff : Int)) ++ ['/'] ++
          intToChars (nIdx + (nOff : Int)) := by
  rcases renumberToken_ok_iff.mp h with ⟨v, t, n, hv, ht, hn, rfl⟩
  have hp1 : ¬ fieldPresent p 1 := fun hc => hc.2 h1
  have ht' : t = [] := ht.2 hp1
  rcases hv.1 h0 with ⟨i, hi, hv'⟩
  rcases hn.1 h2 with ⟨nIdx, hnIdx, hn'⟩
  have hnne : n ≠ [] := by rw [hn']; exact intToChars_ne_nil _
  refine ⟨i, nIdx, hi, hnIdx, ?_, ?_⟩
  · rw [rebuildToken, if_neg (fun hc => hnne hc.2), if_neg hnne, ht', hv', hn']
    simp
  · rw [rebuildToken, if_neg (fun hc => hnne hc.2), if_neg hnne, ht', hv', hn']
    intro hc
    have := congrArg List.length hc
    simp only [List.length_append, List.length_cons, List.length_nil,
      List.append_nil] at this
    omega

theorem c2_witness :
    ∃ i nIdx, pyInt? (fieldAt "1//3".data 0) = some i ∧
      pyInt? (fieldAt "1//3".data 2) = some nIdx ∧
      ("3//8".data : Str) = intToChars (i + ((2 : Nat) : Int)) ++ ['/', '/'] ++
        intToChars (nIdx + ((5 : Nat) : Int)) ∧
      ("3//8".data : Str) ≠ intToChars (i + ((2 : Nat) : Int)) ++ ['/'] ++
        intToChars (nIdx + ((5 : Nat) : Int)) :=
  @c2_double_slash_preserved 2 0 5 "1//3".data "3//8".data
    (by decide) (by decide) (by decide) (by decide)

/-- C10: fields of a face token beyond the third are silently dropped:
the rewrite only depends on the first three `/`-separated fields, and an
emitted token never has more than three fields. -/
theorem c10_extra_fields_dropped :
    (∀ (vOff tOff nOff : Nat) (p₁ p₂ : Str),
        (p₁.splitOn '/').take 3 = (p₂.splitOn '/').take 3 →
        renumberToken vOff tOff nOff p₁ = renumberToken vOff tOff nOff p₂) ∧
    (∀ (vOff tOff nOff : Nat) (p q : Str),
        renumberToken vOff tOff nOff p = .ok q →
        (q.splitOn '/').length ≤ 3) := by
  constructor
  · intro vOff tOff nOff p₁ p₂ htake
    have hfield : ∀ k off, k < 3 →
        renumberField (p₁.splitOn '/') k off = renumberField (p₂.splitOn '/') k off := by
      intro k off hk3
      have hlen1 : k < (p₁.splitOn '/').length ↔ k < (p₂.splitOn '/').length := by
        have h1 := congrArg List.length htake
        simp only [List.length_take] at h1
        omega
      have hgetD : (p₁.splitOn '/').getD k [] = (p₂.splitOn '/').getD k [] := by
        rw [List.getD_eq_getElem?_getD, List.getD_eq_getElem?_getD,
          ← List.getElem?_take_of_lt (l := p₁.splitOn '/') hk3,
          ← List.getElem?_take_of_lt (l := p₂.splitOn '/') hk3, htake]
      rw [renumberField, renumberField, hgetD,
        if_congr (and_congr_left fun _ => hlen1) rfl rfl]
    rw [renumberToken, renumberToken,
      hfield 0 vOff (by omega), hfield 1 tOff (by omega), hfield 2 nOff (by omega)]
  · intro vOff tOff nOff p q h
    rcases renumberToken_ok_iff.mp h with ⟨v, t, n, hv, ht, hn, rfl⟩
    have hvs : '/' ∉ v := fieldRenumbered_no_slash hv
    have hts : '/' ∉ t := fieldRenumbered_no_slash ht
    have hns : '/' ∉ n := fieldRenumbered_no_slash hn
    rw [rebuildToken]
    split_ifs with hc1 hc2
    · rw [splitOn_no_slash hvs]
      simp
    · have : v ++ ['/'] ++ t = v ++ '/' :: t := by simp
      rw [this, splitOn_append_slash hvs, splitOn_no_slash hts]
      simp
    · have : v ++ ['/'] ++ t ++ ['/'] ++ n = v ++ '/' :: (t ++ '/' :: n) := by simp
      rw [this, splitOn_append_slash hvs, splitOn_append_slash hts,
        splitOn_no_slash hns]
      simp

theorem c10_witness :
    renumberToken 1 2 3 "1/2/3/4".data = renumberToken 1 2 3 "1/2/3/9".data ∧
    ((("2/4/6".data : Str)).splitOn '/').length ≤ 3 :=
  ⟨c10_extra_fields_dropped.1 1 2 3 "1/2/3/4".data "1/2/3/9".data (by decide),
   c10_extra_fields_dropped.2 1 2 3 "1/2/3/4".data "2/4/6".data (by decide)⟩

/-- C1: in the merged output, file `k`'s block is produced with each
offset equal to the sum of the corresponding line counts of the files
before it (equivalently, each offset grows by exactly one file's counts
after that file's block); and a token rewrite emits every present,
non-empty index field as its parsed integer plus the offset of its kind
(vertex for field 0, texcoord for field 1, normal for field 2), while an
absent field is re-emitted as absent. -/
theorem c1_offset_renumbering :
    (∀ (entries : List DirEntry) (out : List Str),
      mergeDirectory entries = .ok out →
      ∃ blocks : List (List Str),
        blocks.length = (selectObjFiles entries).length ∧
        out = headerLine :: [] :: blocks.flatten ∧
        ∀ k (hk : k < (selectObjFiles entries).length),
          fileBlock
            ⟨(((selectObjFiles entries).take k).map vertCount).sum,
             (((selectObjFiles entries).take k).map texCount).sum,
             (((selectObjFiles entries).take k).map normCount).sum⟩
            ((selectObjFiles entries).get ⟨k, hk⟩).name
            ((selectObjFiles entries).get ⟨k, hk⟩).content =
            .ok (blocks.getD k [])) ∧
    (∀ (vOff tOff nOff : Nat) (p q : Str),
      renumberToken vOff tOff nOff p = .ok q →
      ∃ v t n : Str, fieldRenumbered p 0 vOff v ∧ fieldRenumbered p 1 tOff t ∧
        fieldRenumbered p 2 nOff n ∧ q = rebuildToken v t n) := by
  constructor
  · intro entries out h
    rcases mergeDirectory_ok_decomp h with ⟨blocks, hlen, hflat, hblocks⟩
    exact ⟨blocks, hlen, hflat, fun k hk => hblocks k hk⟩
  · intro vOff tOff nOff p q h
    exact renumberToken_ok_iff.mp h

theorem c1_witness :
    (∃ blocks : List (List Str),
      blocks.length = (selectObjFiles [sampleCube, sampleA]).length ∧
      [headerLine, [], "o a".data, "g a".data, "v 0 0 1".data, "v 0 0 2".data,
          "f 1 2".data, "o cube".data, "g cube".data, "v 0 0 0".data,
          "vt 0 0".data, "vn 1 0 0".data, "f 3/1/1".data] =
        headerLine :: [] :: blocks.flatten ∧
      ∀ k (hk : k < (selectObjFiles [sampleCube, sampleA]).length),
        fileBlock
          ⟨(((selectObjFiles [sampleCube, sampleA]).take k).map vertCount).sum,
           (((selectObjFiles [sampleCube, sampleA]).take k).map texCount).sum,
           (((selectObjFiles [sampleCube, sampleA]).take k).map normCount).sum⟩
          ((selectObjFiles [sampleCube, sampleA]).get ⟨k, hk⟩).name
          ((selectObjFiles [sampleCube, sampleA]).get ⟨k, hk⟩).content =
          .ok (blocks.getD k [])) ∧
    (∃ v t n : Str, fieldRenumbered "2//7".data 0 10 v ∧
      fieldRenumbered "2//7".data 1 20 t ∧ fieldRenumbered "2//7".data 2 30 n ∧
      ("12//37".data : Str) = rebuildToken v t n) :=
  ⟨c1_offset_renumbering.1 [sampleCube, sampleA] _ (by decide),
   c1_offset_renumbering.2 10 20 30 "2//7".data "12//37".data (by decide)⟩

/-- C9: the merge ends in an error exactly when some face token of some
selected file has a present, non-empty index field (among the first
three) that fails integer parsing; in particular a parse failure aborts
the whole merge with no recovery, and if every present field parses the
merge completes. -/
theorem c9_parse_error_aborts (entries : List DirEntry) :
    mergeDirectory entries = .error () ↔
      ∃ e ∈ selectObjFiles entries, ∃ fl ∈ (parseLines e.content).faces,
        ∃ p ∈ (pySplitWs fl).drop 1, ∃ k, k < 3 ∧ fieldPresent p k ∧
          pyInt? (fieldAt p k) = none := by
  have hiff : mergeDirectory entries = .error () ↔
      mergeFilesFrom ⟨0, 0, 0⟩
        ((selectObjFiles entries).map (fun e => (e.name, e.content))) =
        .error () := by
    rw [mergeDirectory]
    cases hm : mergeFilesFrom ⟨0, 0, 0⟩
        ((selectObjFiles entries).map (fun e => (e.name, e.content))) with
    | error e => cases e; simp
    | ok blocks => simp
  rw [hiff]
  constructor
  · intro herr
    by_contra hnone
    push_neg at hnone
    have hok : ∃ out, mergeFilesFrom ⟨0, 0, 0⟩
        ((selectObjFiles entries).map (fun e => (e.name, e.content))) =
        .ok out := by
      rw [mergeFilesFrom_isOk_iff]
      intro f hf fl hfl p hp k hk3 hpres
      rcases List.mem_map.mp hf with ⟨e, he, rfl⟩
      exact Option.isSome_iff_ne_none.mpr (hnone e he fl hfl p hp k hk3 hpres)
    rcases hok with ⟨out, hout⟩
    rw [hout] at herr
    exact absurd herr (by simp)
  · rintro ⟨e, he, fl, hfl, p, hp, k, hk3, hpres, hnone⟩
    rcases except_unit_dichotomy (mergeFilesFrom ⟨0, 0, 0⟩
        ((selectObjFiles entries).map (fun e => (e.name, e.content)))) with
      herr | ⟨out, hout⟩
    · exact herr
    · exfalso
      have hgood := mergeFilesFrom_isOk_iff.mp ⟨out, hout⟩ (e.name, e.content)
        (List.mem_map_of_mem _ he) fl hfl p hp
      have := hgood k hk3 hpres
      rw [hnone] at this
      exact absurd this (by simp)

theorem c9_witness : mergeDirectory [sampleBad, sampleA] = .error () :=
  (c9_parse_error_aborts [sampleBad, sampleA]).mpr
    ⟨sampleBad, by decide, "f x".data, by decide, "x".data, by decide,
     0, by decide, by decide, by decide⟩

/-- C4: the merged files are exactly the regular directory entries whose
lower-cased name ends in `.obj`; their blocks appear in ascending
code-point filename order; and the merged output does not depend on the
enumeration order of the directory (any permutation gives the same
output). -/
theorem c4_order_determinism {e₁ e₂ : List DirEntry}
    (hperm : e₁.Perm e₂) (hnodup : (e₁.map DirEntry.name).Nodup) :
    mergeDirectory e₁ = mergeDirectory e₂ ∧
    (∀ e : DirEntry, e ∈ selectObjFiles e₁ ↔ e ∈ e₁ ∧ isObjEntry e = true) ∧
    (selectObjFiles e₁).Pairwise nameLe := by
  refine ⟨?_, ?_, sorted_selectObjFiles e₁⟩
  · rw [mergeDirectory, mergeDirectory, selectObjFiles_eq_of_perm hperm hnodup]
  · intro e
    rw [(selectObjFiles_perm e₁).mem_iff, List.mem_filter]

theorem c4_witness :
    mergeDirectory [sampleCube, sampleA] = mergeDirectory [sampleA, sampleCube] ∧
    (∀ e : DirEntry, e ∈ selectObjFiles [sampleCube, sampleA] ↔
      e ∈ [sampleCube, sampleA] ∧ isObjEntry e = true) ∧
    (selectObjFiles [sampleCube, sampleA]).Pairwise nameLe :=
  c4_order_determinism (by decide) (by decide)

theorem forall₂_mem_right {α β : Type _} {R : α → β → Prop} {l₁ : List α}
    {l₂ : List β} (h : List.Forall₂ R l₁ l₂) : ∀ b ∈ l₂, ∃ a ∈ l₁, R a b := by
  intro b hb
  rcases List.forall₂_iff_get.mp h with ⟨hlen, hget⟩
  rcases List.mem_iff_get.mp hb with ⟨⟨j, hj⟩, rfl⟩
  exact ⟨l₁.get ⟨j, by omega⟩, List.get_mem _ _ _, hget j (by omega) hj⟩

/-- C5: merging a directory whose selection is a single file reproduces
that file's parsed vertex/texcoord/normal lines textually and its face
lines with numerically identical indices (the offsets are all zero), the
only additions being the header and the regenerated `o`/`g` lines. -/
theorem c5_single_file_roundtrip {entries : List DirEntry} {e : DirEntry}
    {out : List Str} (hsel : selectObjFiles entries = [e])
    (h : mergeDirectory entries = .ok out) :
    ∃ newFaces : List Str,
      out = headerLine :: [] :: (['o', ' '] ++ splitextBase e.name) ::
        (['g', ' '] ++ splitextBase e.name) ::
        ((parseLines e.content).vertices ++ (parseLines e.content).texcoords ++
         (parseLines e.content).normals ++ newFaces) ∧
      List.Forall₂ (fun fl nf =>
          ∃ toks : List Str, nf = ['f', ' '] ++ List.intercalate [' '] toks ∧
            List.Forall₂ (fun p q =>
                ∃ v t n : Str,
                  (fieldPresent p 0 →
                    ∃ i, pyInt? (fieldAt p 0) = some i ∧ v = intToChars i) ∧
                  (¬ fieldPresent p 0 → v = []) ∧
                  (fieldPresent p 1 →
                    ∃ i, pyInt? (fieldAt p 1) = some i ∧ t = intToChars i) ∧
                  (¬ fieldPresent p 1 → t = []) ∧
                  (fieldPresent p 2 →
                    ∃ i, pyInt? (fieldAt p 2) = some i ∧ n = intToChars i) ∧
                  (¬ fieldPresent p 2 → n = []) ∧
                  q = rebuildToken v t n)
              ((pySplitWs fl).drop 1) toks)
        (parseLines e.content).faces newFaces := by
  rcases mergeDirectory_ok_decomp h with ⟨blocks, hlen, hflat, hblocks⟩
  rw [hsel] at hlen hblocks
  rcases List.length_eq_one.mp (by simpa using hlen) with ⟨b, rfl⟩
  have hb : fileBlock ⟨0, 0, 0⟩ e.name e.content = .ok b := hblocks 0 (by simp)
  rcases fileBlock_ok_iff.mp hb with ⟨newFaces, hnf0, hbeq⟩
  have hnf : List.Forall₂ (fun fl nf => renumberFace 0 0 0 fl = .ok nf)
      (parseLines e.content).faces newFaces := hnf0
  refine ⟨newFaces, ?_, ?_⟩
  · rw [hflat]
    simp only [List.flatten_cons, List.flatten_nil, List.append_nil]
    rw [hbeq]
  · refine hnf.imp ?_
    intro fl nf hfl
    rcases renumberFace_ok_iff.mp hfl with ⟨toks, htoks, rfl⟩
    refine ⟨toks, rfl, htoks.imp ?_⟩
    intro p q hq
    rcases renumberToken_ok_iff.mp hq with ⟨v, t, n, hv, ht, hn, rfl⟩
    have hzero : ∀ s : Str, ∀ k : Nat,
        fieldRenumbered p k 0 s →
        (fieldPresent p k → ∃ i, pyInt? (fieldAt p k) = some i ∧ s = intToChars i) := by
      intro s k hs hpr
      rcases hs.1 hpr with ⟨i, hi, hseq⟩
      refine ⟨i, hi, ?_⟩
      rwa [show ((0 : Nat) : Int) = 0 from rfl, Int.add_zero] at hseq
    exact ⟨v, t, n, hzero v 0 hv, hv.2, hzero t 1 ht, ht.2, hzero n 2 hn, hn.2, rfl⟩

theorem c5_witness :
    ∃ newFaces : List Str,
      ([headerLine, [], "o a".data, "g a".data, "v 0 0 1".data, "v 0 0 2".data,
          "f 1 2".data] : List Str) =
        headerLine :: [] :: (['o', ' '] ++ splitextBase sampleA.name) ::
        (['g', ' '] ++ splitextBase sampleA.name) ::
        ((parseLines sampleA.content).vertices ++
         (parseLines sampleA.content).texcoords ++
         (parseLines sampleA.content).normals ++ newFaces) ∧
      List.Forall₂ (fun fl nf =>
          ∃ toks : List Str, nf = ['f', ' '] ++ List.intercalate [' '] toks ∧
            List.Forall₂ (fun p q =>
                ∃ v t n : Str,
                  (fieldPresent p 0 →
                    ∃ i, pyInt? (fieldAt p 0) = some i ∧ v = intToChars i) ∧
                  (¬ fieldPresent p 0 → v = []) ∧
                  (fieldPresent p 1 →
                    ∃ i, pyInt? (fieldAt p 1) = some i ∧ t = intToChars i) ∧
                  (¬ fieldPresent p 1 → t = []) ∧
                  (fieldPresent p 2 →
                    ∃ i, pyInt? (fieldAt p 2) = some i ∧ n = intToChars i) ∧
                  (¬ fieldPresent p 2 → n = []) ∧
                  q = rebuildToken v t n)
              ((pySplitWs fl).drop 1) toks)
        (parseLines sampleA.content).faces newFaces :=
  @c5_single_file_roundtrip [sampleA] sampleA
    [headerLine, [], "o a".data, "g a".data, "v 0 0 1".data, "v 0 0 2".data,
      "f 1 2".data] (by decide) (by decide)

theorem countVertexLines_cons_false {x : Str} {rest : List Str}
    (hx : startswith ['v', ' '] x = false) :
    countVertexLines (x :: rest) = countVertexLines rest := by
  unfold countVertexLines
  rw [List.filter_cons_of_neg (by rw [hx]; simp)]

theorem countVertexLines_flatten (bs : List (List Str)) :
    countVertexLines bs.flatten = (bs.map countVertexLines).sum := by
  induction bs with
  | nil => rfl
  | cons b bs ih =>
    rw [List.flatten_cons, countVertexLines_append, ih, List.map_cons,
      List.sum_cons]

theorem getD_eq_get {α : Type _} {l : List α} {k : Nat} (hk : k < l.length)
    (d : α) : l.getD k d = l.get ⟨k, hk⟩ := by
  rw [List.getD_eq_getElem?_getD, List.getElem?_eq_getElem hk,
    List.get_eq_getElem]
  rfl

/-- C3: when every face vertex index of each selected file lies within
that file's own vertex count, the merged output's vertex-line total is
the sum of the files' vertex counts, and every renumbered face vertex
index in file `k`'s block lies in the window
`[sum of earlier counts + 1, sum of earlier counts + count of file k]`
— so no face refers to a vertex of a later file. -/
theorem c3_vertex_count_and_range {entries : List DirEntry} {out : List Str}
    (h : mergeDirectory entries = .ok out)
    (hidx : ∀ e ∈ selectObjFiles entries, ∀ fl ∈ (parseLines e.content).faces,
      ∀ p ∈ (pySplitWs fl).drop 1, fieldPresent p 0 ∧
        ∃ i : Int, pyInt? (fieldAt p 0) = some i ∧ 1 ≤ i ∧
          i ≤ (vertCount e : Int)) :
    countVertexLines out = ((selectObjFiles entries).map vertCount).sum ∧
    ∃ blocks : List (List Str),
      blocks.length = (selectObjFiles entries).length ∧
      out = headerLine :: [] :: blocks.flatten ∧
      ∀ k (hk : k < (selectObjFiles entries).length),
        ∃ newFaces : List Str,
          blocks.getD k [] =
            (['o', ' '] ++ splitextBase ((selectObjFiles entries).get ⟨k, hk⟩).name) ::
            (['g', ' '] ++ splitextBase ((selectObjFiles entries).get ⟨k, hk⟩).name) ::
            ((parseLines ((selectObjFiles entries).get ⟨k, hk⟩).content).vertices ++
             (parseLines ((selectObjFiles entries).get ⟨k, hk⟩).content).texcoords ++
             (parseLines ((selectObjFiles entries).get ⟨k, hk⟩).content).normals ++
             newFaces) ∧
          ∀ nf ∈ newFaces, ∃ toks : List Str,
            nf = ['f', ' '] ++ List.intercalate [' '] toks ∧
            ∀ tok ∈ toks, ∃ j : Int,
              (tok = intToChars j ∨ ∃ rest, tok = intToChars j ++ '/' :: rest) ∧
              ((((selectObjFiles entries).take k).map vertCount).sum : Int) + 1 ≤ j ∧
              j ≤ ((((selectObjFiles entries).take k).map vertCount).sum : Int) +
                (vertCount ((selectObjFiles entries).get ⟨k, hk⟩) : Int) := by
  rcases mergeDirectory_ok_decomp h with ⟨blocks, hlen, hflat, hblocks⟩
  constructor
  · rw [hflat,
      countVertexLines_cons_false
        (by decide : startswith ['v', ' '] headerLine = false),
      countVertexLines_cons_false
        (by decide : startswith ['v', ' '] ([] : Str) = false),
      countVertexLines_flatten]
    congr 1
    apply List.ext_get (by simp [hlen])
    intro n h1 h2
    simp only [List.get_eq_getElem, List.getElem_map]
    have hb := hblocks n (by simpa using h2)
    have hcnt := countVertexLines_fileBlock hb
    rw [getD_eq_get (by simpa using h1)] at hcnt
    exact hcnt
  · refine ⟨blocks, hlen, hflat, ?_⟩
    intro k hk
    have hb := hblocks k hk
    rcases fileBlock_ok_iff.mp hb with ⟨newFaces, hnf, hbeq⟩
    refine ⟨newFaces, hbeq, ?_⟩
    intro nf hnfmem
    rcases forall₂_mem_right hnf nf hnfmem with ⟨fl, hflmem, hface⟩
    rcases renumberFace_ok_iff.mp hface with ⟨toks, htoks, rfl⟩
    refine ⟨toks, rfl, ?_⟩
    intro tok htokmem
    rcases forall₂_mem_right htoks tok htokmem with ⟨p, hpmem, htok⟩
    have he : (selectObjFiles entries).get ⟨k, hk⟩ ∈ selectObjFiles entries :=
      List.get_mem _ _ _
    rcases hidx _ he fl hflmem p hpmem with ⟨hpres, i, hi, h1i, hiV⟩
    rcases renumberToken_ok_iff.mp htok with ⟨v, t, n, hv, ht, hn, rfl⟩
    rcases hv.1 hpres with ⟨i', hi', hveq⟩
    rw [hi] at hi'
    injection hi' with hieq
    subst hieq
    refine ⟨i + ((((selectObjFiles entries).take k).map vertCount).sum : Int),
      ?_, by omega, by omega⟩
    rw [rebuildToken]
    split_ifs with hc1 hc2
    · exact Or.inl hveq
    · refine Or.inr ⟨t, ?_⟩
      rw [hveq]
      simp only [List.append_assoc, List.singleton_append]
      rfl
    · refine Or.inr ⟨t ++ '/' :: n, ?_⟩
      rw [hveq]
      simp only [List.append_assoc, List.singleton_append]
      rfl

theorem c3_witness :
    countVertexLines [headerLine, [], "o a".data, "g a".data, "v 0 0 1".data,
        "v 0 0 2".data, "f 1 2".data] =
      ((selectObjFiles [sampleA]).map vertCount).sum ∧
    ∃ blocks : List (List Str),
      blocks.length = (selectObjFiles [sampleA]).length ∧
      [headerLine, [], "o a".data, "g a".data, "v 0 0 1".data, "v 0 0 2".data,
          "f 1 2".data] = headerLine :: [] :: blocks.flatten ∧
      ∀ k (hk : k < (selectObjFiles [sampleA]).length),
        ∃ newFaces : List Str,
          blocks.getD k [] =
            (['o', ' '] ++ splitextBase ((selectObjFiles [sampleA]).get ⟨k, hk⟩).name) ::
            (['g', ' '] ++ splitextBase ((selectObjFiles [sampleA]).get ⟨k, hk⟩).name) ::
            ((parseLines ((selectObjFiles [sampleA]).get ⟨k, hk⟩).content).vertices ++
             (parseLines ((selectObjFiles [sampleA]).get ⟨k, hk⟩).content).texcoords ++
             (parseLines ((selectObjFiles [sampleA]).get ⟨k, hk⟩).content).normals ++
             newFaces) ∧
          ∀ nf ∈ newFaces, ∃ toks : List Str,
            nf = ['f', ' '] ++ List.intercalate [' '] toks ∧
            ∀ tok ∈ toks, ∃ j : Int,
              (tok = intToChars j ∨ ∃ rest, tok = intToChars j ++ '/' :: rest) ∧
              ((((selectObjFiles [sampleA]).take k).map vertCount).sum : Int) + 1 ≤ j ∧
              j ≤ ((((selectObjFiles [sampleA]).take k).map vertCount).sum : Int) +
                (vertCount ((selectObjFiles [sampleA]).get ⟨k, hk⟩) : Int) :=
  @c3_vertex_count_and_range [sampleA]
    [headerLine, [], "o a".data, "g a".data, "v 0 0 1".data, "v 0 0 2".data,
      "f 1 2".data]
    (by decide)
    (by
      intro e he fl hfl p hp
      have hsel : selectObjFiles [sampleA] = [sampleA] := by decide
      rw [hsel] at he
      rcases List.mem_cons.mp he with rfl | he
      · have hfaces : (parseLines sampleA.content).faces = ["f 1 2".data] := by
          decide
        rw [hfaces] at hfl
        rcases List.mem_cons.mp hfl with rfl | hfl
        · have htoks : (pySplitWs "f 1 2".data).drop 1 =
              ["1".data, "2".data] := by decide
          rw [htoks] at hp
          rcases List.mem_cons.mp hp with rfl | hp
          · exact ⟨by decide, 1, by decide, by decide, by decide⟩
          rcases List.mem_cons.mp hp with rfl | hp
          · exact ⟨by decide, 2, by decide, by decide, by decide⟩
          · exact absurd hp (by simp)
        · exact absurd hfl (by simp)
      · exact absurd he (by simp))

end MergeObj
